import Mathlib

/-!
Verification of the SnowFS object database (`Odb`, from the repository source)
against its natural-language specification.

The embedding models:
* JS strings as Lean `String`, file bytes as `FData`;
* the filesystem as an association list of files plus a list of directories,
  with `fs-extra` style operations (`writeFile` overwrites, `ensureDir` is
  idempotent, `pathExists` is true for files and directories alike);
* each `Odb` operation as an explicit state-passing function returning the
  operation result together with the filesystem after the call (a thrown
  JS `Error` becomes an `Except.error`; the code throws before mutating, so
  the state returned alongside an error is the input state).
-/

namespace SnowFS

/-- Models `path.join(a, b)` for the simple two-segment joins the Odb performs. -/
def pjoin (a b : String) : String := a ++ "/" ++ b

/-- JS `String.prototype.substr(start, len)`. -/
def substr (s : String) (start len : Nat) : String :=
  String.mk ((s.data.drop start).take len)

/-- JS `Array.prototype.join(sep)`. -/
def jsJoin (sep : String) : List String → String
  | [] => ""
  | [x] => x
  | x :: y :: rest => x ++ sep ++ jsJoin sep (y :: rest)

/-- The repository configuration record `{version, filemode, symlinks}`
(`defaultConfig` shape in the source). -/
structure Config where
  version : Int
  filemode : Bool
  symlinks : Bool
deriving DecidableEq, Repr

/-- Models `defaultConfig` from the source: `{version: 2, filemode: false, symlinks: true}`. -/
def defaultConfig : Config := { version := 2, filemode := false, symlinks := true }

/-- A JSON-compatible scalar, for the free-form `userData` maps. -/
inductive Prim where
  | pstr (s : String)
  | pint (n : Int)
  | pbool (b : Bool)
deriving DecidableEq, Repr

/-- A free-form user-data map of JSON-compatible scalars. -/
def UData := List (String × Prim)
deriving DecidableEq

/-- The empty user-data object `{}`. -/
def UData.empty : UData := []

/-- The record `writeReference` serializes to a reference file:
`{hash, start (omitted when falsy), userData}`. -/
structure StoredRef where
  hash : String
  start : Option String
  userData : UData
deriving DecidableEq

/-- Byte content of a file.  Files written via `JSON.stringify` of a structured
record keep the record (JSON round-trips losslessly); everything else is a raw
byte string. -/
inductive FData where
  | raw (s : String)
  | config (c : Config)
  | refData (r : StoredRef)
deriving DecidableEq

/-- The byte string a file's content denotes (`buf.toString()`).  Structured
contents denote their JSON text; only `raw` contents are read back as text by
the operations verified here. -/
def FData.text : FData → String
  | .raw s => s
  | .config c =>
      "\x7b\"version\":" ++ toString c.version ++ ",\"filemode\":" ++ toString c.filemode
        ++ ",\"symlinks\":" ++ toString c.symlinks ++ "\x7d"
  | .refData r => "\x7b\"hash\":\"" ++ r.hash ++ "\",...\x7d"

/-- The filesystem: files (path to content, no duplicate live keys thanks to
overwrite-by-filter) and directories. -/
structure FS where
  files : List (String × FData)
  dirs : List String
deriving DecidableEq

namespace FS

/-- Models `fse.readFile`: `none` means the file is absent (the promise rejects). -/
def readFile (fs : FS) (p : String) : Option FData :=
  (fs.files.find? (fun e => e.1 == p)).map (·.2)

/-- Models `fse.writeFile`: creates or overwrites. -/
def writeFile (fs : FS) (p : String) (d : FData) : FS :=
  { fs with files := (p, d) :: fs.files.filter (fun e => e.1 != p) }

/-- Models `fse.remove` / `fse.unlink` on a file path. -/
def removeFile (fs : FS) (p : String) : FS :=
  { fs with files := fs.files.filter (fun e => e.1 != p) }

/-- Models `fse.ensureDir`: creating an already-present directory is not an error. -/
def ensureDir (fs : FS) (d : String) : FS :=
  { fs with dirs := d :: fs.dirs }

/-- A file exists at `p`. -/
def fileExists (fs : FS) (p : String) : Bool :=
  (fs.readFile p).isSome

/-- Models `fse.pathExists`: true when any entry (file or directory) exists at `p`. -/
def pathExists (fs : FS) (p : String) : Bool :=
  fs.fileExists p || fs.dirs.contains p

/-- Models `ioContext.copyFile(src, dst)`: copies the source bytes to `dst`;
`none` models the I/O failure when the source is absent. -/
def copyFile (fs : FS) (src dst : String) : Option FS :=
  (fs.readFile src).map (fun c => fs.writeFile dst c)

/-- Models `fse.move(src, dst, overwrite)`: only invoked by `writeObject` after the
source was just created, so the missing-source branch is unreachable there. -/
def move (fs : FS) (src dst : String) : FS :=
  match fs.readFile src with
  | some c => (fs.removeFile src).writeFile dst c
  | none => fs

end FS

/-- The typed failures the Odb raises (`throw new Error(...)` in the source,
§7 taxonomy of the specification). -/
inductive OdbErr where
  | alreadyExists
  | unsupportedVersion (v : Int)
  | notFound (hash : String)
  | missingHash
  | ioError
  | parseError
deriving DecidableEq, Repr

/-- What the Odb consumes from its `Repository`: `commondir()` (metadata
root), `repoWorkDir` and the `compress` option. -/
structure RepoOpts where
  commondir : String
  workdir : String
  compress : Bool

/-- One chunk-hash record `{start, end, hash}` (`HashBlock` in common.ts,
declared outside src/; shape taken from the sidecar serialization in
`writeObject`).  `stop` stands for the source's `end` field. -/
structure HashBlock where
  start : Int
  stop : Int
  hash : String
deriving DecidableEq

/-- The external content hasher consumed by `writeObject`
(`calculateFileHash(path) -> {filehash, hashBlocks?}`): a pure function of
the hashed file's bytes. -/
structure Hasher where
  fileHash : FData → String
  hashBlocks : FData → Option (List HashBlock)

/-- Modelled from the spec: `zipFile` (in io.ts, not under src/) compresses
the source bytes into the destination.  Modelled as a lossless container
encoding — header plus payload — whose output is the stored byte sequence;
the essential spec property is that the destination receives the codec's
output, not the raw input bytes. -/
def zipData (d : FData) : FData :=
  .raw ("gzip:" ++ d.text)

/-- Models `relative(repoWorkDir, filepath)`: the path of the source file relative
to the working-tree root. -/
def relativeTo (root p : String) : String :=
  if (root ++ "/").isPrefixOf p then p.drop (root ++ "/").length else p

namespace Odb

/-- Models `Odb.open` (source lines 609–618): reads `config` from the metadata root,
parses it, and rejects exactly version 1 (`config.version === 1`).
Named `openRepo` because `open` is reserved in Lean. -/
def openRepo (commondir : String) (fs : FS) : Except OdbErr Config :=
  match fs.readFile (pjoin commondir "config") with
  | none => .error .ioError
  | some (.config c) =>
      if c.version = 1 then .error (.unsupportedVersion c.version) else .ok c
  | some _ => .error .parseError

/-- Models `Odb.create` (source lines 620–638): fails when anything exists at the
metadata root (`fse.pathExists(options.commondir)`), otherwise creates the
directory tree and writes `defaultConfig`. -/
def create (commondir : String) (fs : FS) : Except OdbErr Config × FS :=
  if fs.pathExists commondir then
    (.error .alreadyExists, fs)
  else
    let fs1 := ((((fs.ensureDir commondir).ensureDir
      (pjoin commondir "objects")).ensureDir
      (pjoin commondir "versions")).ensureDir
      (pjoin commondir "hooks")).ensureDir (pjoin commondir "refs")
    (.ok defaultConfig, fs1.writeFile (pjoin commondir "config") (.config defaultConfig))

/-- Models `Odb.readHeadReference` (source lines 731–737): reads the fixed `HEAD`
file at the metadata root and returns `buf.toString()`; an absent file is
caught and yields `undefined` instead of an error. -/
def readHeadReference (commondir : String) (fs : FS) : Option String :=
  match fs.readFile (pjoin commondir "HEAD") with
  | some d => some d.text
  | none => none

/-- The in-memory `Reference` (reference.ts).  `hash`/`start` are `Option`
because the source manipulates possibly-undefined values; a JS-falsy hash is
`none` or the empty string. -/
structure Reference where
  refName : String
  hash : Option String
  start : Option String
  userData : Option UData

/-- Models `Reference.isDetached` (reference.ts lines 39–41). -/
def Reference.isDetached (r : Reference) : Bool :=
  r.refName == "HEAD"

/-- JS truthiness test for an optional string (`!ref.hash`, `ref.start ? ...`):
falsy when absent or empty. -/
def strFalsy : Option String → Bool
  | none => true
  | some s => s == ""

/-- Models `Odb.writeReference` (source lines 744–763): a detached ref is skipped
with a warning; a falsy hash throws (`MissingHash`); otherwise
`{hash, start (dropped when falsy), userData ?? {}}` is written, overwriting,
to the file named after the reference under `refs/`. -/
def writeReference (commondir : String) (ref : Reference) (fs : FS) :
    Except OdbErr Unit × FS :=
  if ref.isDetached then
    (.ok (), fs)
  else if strFalsy ref.hash then
    (.error .missingHash, fs)
  else
    let refPath := pjoin (pjoin commondir "refs") ref.refName
    (.ok (), fs.writeFile refPath (.refData
      { hash := ref.hash.getD ""
        start := if strFalsy ref.start then none else ref.start
        userData := ref.userData.getD UData.empty }))

/-- Models `Odb.getObjectPath` (source lines 739–742): the pure two-level sharded
location of a content hash — `objects/<h0:2>/<h2:4>/<hash>`.  The same
expression is inlined in `writeObject` (line 817) and `readObject`
(line 843). -/
def getObjectPath (commondir : String) (hash : String) : String :=
  pjoin (pjoin (pjoin (pjoin commondir "objects") (substr hash 0 2)) (substr hash 2 2)) hash

/-- The sidecar line format of `writeObject`: one `start;end;hash;` line per
block, joined with newlines. -/
def renderBlocks (bs : List HashBlock) : String :=
  jsJoin "\n" (bs.map (fun b => toString b.start ++ ";" ++ toString b.stop ++ ";" ++ b.hash ++ ";"))

/-- Models `Odb.writeObject` (source lines 799–840).  `tmpName` stands for the
clock-derived temporary file name.  Order as in the source: ensure `tmp/`,
copy the source into it, hash the original source path, compute the sharded
destination, then either discard the temp copy (destination already present),
compress into place, or move into place — and finally write the `.hblock`
sidecar whenever the hasher produced blocks. -/
def writeObject (repo : RepoOpts) (hasher : Hasher) (tmpName filepath : String)
    (fs : FS) : Except OdbErr (String × String) × FS :=
  let tmpDir := pjoin repo.commondir "tmp"
  let tmpPath := pjoin tmpDir tmpName
  let fs1 := fs.ensureDir tmpDir
  match fs1.copyFile filepath tmpPath with
  | none => (.error .ioError, fs1)
  | some fs2 =>
    match fs2.readFile filepath with
    | none => (.error .ioError, fs2)
    | some c =>
      let filehash := hasher.fileHash c
      let dstFile := getObjectPath repo.commondir filehash
      let fs3 :=
        if fs2.pathExists dstFile then
          fs2.removeFile tmpPath
        else if repo.compress then
          (match fs2.readFile tmpPath with
           | some ct => fs2.writeFile dstFile (zipData ct)
           | none => fs2).removeFile tmpPath
        else
          fs2.move tmpPath dstFile
      let fs4 :=
        match hasher.hashBlocks c with
        | some bs => fs3.writeFile (dstFile ++ ".hblock") (.raw (renderBlocks bs))
        | none => fs3
      (.ok (relativeTo repo.workdir filepath, filehash), fs4)

/-- Models `Odb.readObject` (source lines 842–852): `NotFound` when nothing exists
at the sharded path, otherwise the stored blob is copied byte-for-byte to
`dst`. -/
def readObject (repo : RepoOpts) (hash dst : String) (fs : FS) :
    Except OdbErr Unit × FS :=
  let objectFile := getObjectPath repo.commondir hash
  if fs.pathExists objectFile then
    match fs.copyFile objectFile dst with
    | some fs1 => (.ok (), fs1)
    | none => (.error .ioError, fs)
  else
    (.error (.notFound hash), fs)

end Odb

/-- The tree snapshot: a directory node with ordered children, or a file leaf
carrying a content hash (`TreeDir` / `TreeFile` in treedir.ts). -/
inductive TreeNode where
  | dir (name : String) (children : List TreeNode)
  | file (name : String) (hash : String)

/-- Modelled from the spec: `TreeDir.toString(true)` (treedir.ts is not under
src/) — the recursive serialization of a tree, children in their in-memory
order; a directory's persisted form carries a `children` field and a file
leaf carries its `hash` (§4.2, §9 of the spec). -/
def treeText : TreeNode → String
  | .dir n cs =>
      "\x7b\"name\": \"" ++ n ++ "\", \"children\": ["
        ++ jsJoin "," (cs.attach.map (fun c => treeText c.1)) ++ "]\x7d"
  | .file n h =>
      "\x7b\"name\": \"" ++ n ++ "\", \"hash\": \"" ++ h ++ "\"\x7d"
decreasing_by
  simp only [TreeNode.dir.sizeOf_spec]
  have := List.sizeOf_lt_of_mem c.2
  omega

/-- JSON text of a user-data scalar. -/
def primText : Prim → String
  | .pstr s => "\"" ++ s ++ "\""
  | .pint n => toString n
  | .pbool b => toString b

/-- Models `JSON.stringify` of a flat user-data map. -/
def udataText (u : UData) : String :=
  "\x7b" ++ jsJoin "," (u.map (fun e => "\"" ++ e.1 ++ "\":" ++ primText e.2)) ++ "\x7d"

/-- The in-memory commit handed to `writeCommit` (commit.ts is not under
src/; the fields are the ones `writeCommit` reads, with `date` kept as the
epoch-millisecond value `date.getTime()` denotes). -/
structure CommitRec where
  hash : String
  message : String
  date : Int
  parent : List String
  root : TreeNode
  tags : Option (List String)
  userData : Option UData

/-- Source line 771: `const parent = `"${commit.parent.join('","')}"``. -/
def parentText (parent : List String) : String :=
  "\"" ++ jsJoin "\",\"" parent ++ "\""

/-- The full `"parent"` array text written on line 776: `[${parent}]`. -/
def parentFieldText (parent : List String) : String :=
  "[" ++ parentText parent ++ "]"

/-- The remaining tag writes of the `forEach` on lines 781–784: after the
first tag the separator is `", "`. -/
def tagsInnerRest : List String → String
  | [] => ""
  | t :: ts => ", \"" ++ t ++ "\"" ++ tagsInnerRest ts

/-- The tag list writes with the initial separator `" "` (line 780). -/
def tagsInner : List String → String
  | [] => ""
  | t :: ts => " \"" ++ t ++ "\"" ++ tagsInnerRest ts

/-- The `tags` portion of the streamed commit (source lines 778–786):
nothing when `commit.tags` is absent (JS-falsy), otherwise
`,"tags": [ ... ]` — note that an empty array is truthy in JS, so a present
empty list still writes the field. -/
def tagsSegment : Option (List String) → String
  | none => ""
  | some l => ",\"tags\": [" ++ tagsInner l ++ " ]"

/-- The `userData` portion (source lines 787–789). -/
def userDataSegment : Option UData → String
  | none => ""
  | some u => ",\"userData\": " ++ udataText u

/-- The full byte content `Odb.writeCommit` streams into
`versions/<commit.hash>` (source lines 765–797), whitespace as in the
template literal. -/
def writeCommitText (c : CommitRec) : String :=
  "\x7b"
    ++ "\"hash\": \"" ++ c.hash ++ "\",\n"
    ++ "                  \"message\": \"" ++ c.message ++ "\",\n"
    ++ "                  \"date\": " ++ toString c.date ++ ",\n"
    ++ "                  \"parent\": [" ++ parentText c.parent ++ "], \"root\":"
    ++ treeText c.root
    ++ tagsSegment c.tags
    ++ userDataSegment c.userData
    ++ "\x7d"

/-- Models `Odb.writeCommit` at the filesystem level: the streamed text lands in
`versions/<hash>` with overwrite (`flags: 'w'`). -/
def Odb.writeCommit (commondir : String) (c : CommitRec) (fs : FS) : FS :=
  fs.writeFile (pjoin (pjoin commondir "versions") c.hash) (.raw (writeCommitText c))

/-- Tests whether `pat` occurs as a contiguous substring of `s` (character lists). -/
def listHasSub (s pat : List Char) : Bool :=
  match s with
  | [] => decide (pat = [])
  | _ :: rest => pat.isPrefixOf s || listHasSub rest pat

/-! ### Parsing the written `parent` array text back (JSON semantics)

The `parent` field is hand-built text; `readCommits` recovers it with
`JSON.parse`.  For escape-free string literals JSON's grammar is the little
recursive-descent parser below, which is what the written text denotes. -/

/-- Scan one escape-free JSON string literal: an opening quote, the body up
to the next quote, the closing quote; returns the body and the rest. -/
def scanQuoted (cs : List Char) : Option (List Char × List Char) :=
  match cs with
  | '"' :: rest =>
    match rest.dropWhile (fun c => c != '"') with
    | '"' :: r => some (rest.takeWhile (fun c => c != '"'), r)
    | _ => none
  | _ => none

/-- Parse `"a","b",...]` — comma-separated escape-free string literals up to
the closing bracket.  The fuel only bounds recursion depth. -/
def parseItems : Nat → List Char → Option (List (List Char))
  | 0, _ => none
  | fuel + 1, cs =>
    match scanQuoted cs with
    | none => none
    | some (body, r) =>
      match r with
      | [']'] => some [body]
      | ',' :: r2 => (parseItems fuel r2).map (fun xs => body :: xs)
      | _ => none

/-- Parse a JSON array of escape-free string literals: `[]` is the empty
array, otherwise a bracketed comma-separated list of quoted strings. -/
def parseStringArray (s : String) : Option (List String) :=
  match s.data with
  | '[' :: rest =>
      if rest = [']'] then some []
      else (parseItems rest.length rest).map (fun xs => xs.map String.mk)
  | _ => none

/-- The character sequence following the opening `[` of the written parent
field: quoted hashes separated by `","`, then the closing `]`. -/
def itemsChars : List String → List Char
  | [] => ['"', '"', ']']
  | [x] => '"' :: (x.data ++ '"' :: [']'])
  | x :: y :: rest => '"' :: (x.data ++ '"' :: ',' :: itemsChars (y :: rest))

/-! ### The JSON value level: `readCommits` reconstruction

`readCommits` runs `JSON.parse` on each commit file and re-types the plain
records (`visit`, source lines 651–668).  The claims about tree shape are
settled at the level of the JSON value the file denotes. -/

/-- A JSON value. -/
inductive JVal where
  | jnull
  | jbool (b : Bool)
  | jnum (n : Int)
  | jstr (s : String)
  | jarr (xs : List JVal)
  | jobj (fields : List (String × JVal))

/-- Property access `obj.k` on a parsed JSON object. -/
def jlookup (fields : List (String × JVal)) (k : String) : Option JVal :=
  (fields.find? (fun e => e.1 == k)).map (·.2)

/-- The string a (possibly absent) JSON field denotes when read as one. -/
def jstrOf : Option JVal → String
  | some (.jstr s) => s
  | _ => ""

/-- The tree re-typing of `readCommits` (source lines 651–668): a parsed
record with a truthy `children` field becomes a directory node whose
children are visited in order; anything else becomes a file node carrying
its `hash` field.  (A present `children` array — even empty — is truthy in
JS; a `children: null` is falsy and falls to the file branch, which the
`some (.jarr cs)` pattern mirrors.) -/
def visit (j : JVal) : TreeNode :=
  match j with
  | .jobj fields =>
    match h : jlookup fields "children" with
    | some (.jarr cs) =>
        .dir (jstrOf (jlookup fields "name")) (cs.attach.map (fun c => visit c.1))
    | _ => .file (jstrOf (jlookup fields "name")) (jstrOf (jlookup fields "hash"))
  | _ => .file "" ""
termination_by sizeOf j
decreasing_by
  have hc : sizeOf c.1 < sizeOf cs := List.sizeOf_lt_of_mem c.2
  have hex : ∃ e, List.find? (fun e => e.1 == "children") fields = some e
      ∧ e.2 = JVal.jarr cs := by
    unfold jlookup at h
    cases hf : List.find? (fun e => e.1 == "children") fields with
    | none => rw [hf] at h; simp at h
    | some e =>
      rw [hf] at h
      simp only [Option.map_some'] at h
      exact ⟨e, rfl, by injection h⟩
  obtain ⟨e, he, he2⟩ := hex
  have hmem : e ∈ fields := List.mem_of_find?_eq_some he
  have h1 : sizeOf e < sizeOf fields := List.sizeOf_lt_of_mem hmem
  obtain ⟨k, v⟩ := e
  simp only at he2
  subst he2
  simp only [JVal.jobj.sizeOf_spec, Prod.mk.sizeOf_spec, JVal.jarr.sizeOf_spec] at *
  omega

/-- Modelled from the spec: the JSON value a serialized tree denotes — the
object form of `treeText` (a directory carries `name` and its ordered
`children`; a file leaf carries `name` and `hash`). -/
def treeToJson : TreeNode → JVal
  | .dir n cs =>
      .jobj [("name", .jstr n),
             ("children", .jarr (cs.attach.map (fun c => treeToJson c.1)))]
  | .file n h => .jobj [("name", .jstr n), ("hash", .jstr h)]
decreasing_by
  simp only [TreeNode.dir.sizeOf_spec]
  have := List.sizeOf_lt_of_mem c.2
  omega

/-- JSON value of a user-data scalar. -/
def primJson : Prim → JVal
  | .pstr s => .jstr s
  | .pint n => .jnum n
  | .pbool b => .jbool b

/-- Modelled from the spec: the JSON value the streamed commit text
(`writeCommitText`) denotes, under the claim's hypothesis that message and
tag strings contain no characters that break the manual quoting.  Field for
field as written by `writeCommit`: `hash`, `message`, `date` (epoch millis),
`parent` (the array the written text denotes, see
`parseStringArray`/`parentFieldText`), `root` (the serialized tree), then
`tags` and `userData` exactly when the source writes them. -/
def commitJson (c : CommitRec) : JVal :=
  .jobj ([("hash", .jstr c.hash),
          ("message", .jstr c.message),
          ("date", .jnum c.date),
          ("parent", .jarr (((parseStringArray (parentFieldText c.parent)).getD []).map .jstr)),
          ("root", treeToJson c.root)]
    ++ (match c.tags with
        | none => []
        | some l => [("tags", .jarr (l.map .jstr))])
    ++ (match c.userData with
        | none => []
        | some u => [("userData", .jobj (u.map (fun e => (e.1, primJson e.2))))]))

/-- The commit as reconstructed by `readCommits` (source lines 670–678):
`date` converted from the stored number (`new Date(n)` denotes the same
epoch milliseconds), `root` re-typed by `visit`. -/
structure ReadCommit where
  hash : String
  message : String
  date : Int
  root : TreeNode

/-- The per-commit reconstruction `readCommits` applies to each parsed
commit file. -/
def readCommitOfJson (j : JVal) : ReadCommit :=
  match j with
  | .jobj fields =>
      { hash := jstrOf (jlookup fields "hash")
        message := jstrOf (jlookup fields "message")
        date := match jlookup fields "date" with | some (.jnum n) => n | _ => 0
        root := visit ((jlookup fields "root").getD .jnull) }
  | _ => { hash := "", message := "", date := 0, root := .file "" "" }

/-! ### Supporting lemmas -/

namespace FS

theorem find?_filter_ne (l : List (String × FData)) (p q : String) (h : q ≠ p) :
    (l.filter (fun e => e.1 != p)).find? (fun e => e.1 == q)
      = l.find? (fun e => e.1 == q) := by
  rw [List.find?_filter]
  congr 1
  funext a
  by_cases hq : a.1 = q
  · rw [hq]
    simp [h]
  · simp [hq]

@[simp] theorem readFile_writeFile_self (fs : FS) (p : String) (d : FData) :
    (fs.writeFile p d).readFile p = some d := by
  simp [readFile, writeFile]

theorem readFile_writeFile_ne (fs : FS) (p q : String) (d : FData) (h : q ≠ p) :
    (fs.writeFile p d).readFile q = fs.readFile q := by
  have hq : ¬ (((p, d).1 == q) = true) := by
    simp
    exact fun hh => h hh.symm
  simp only [readFile, writeFile]
  rw [List.find?_cons_of_neg (p := fun (e : String × FData) => e.1 == q) _ (by exact hq),
    find?_filter_ne _ _ _ h]

@[simp] theorem readFile_removeFile_self (fs : FS) (p : String) :
    (fs.removeFile p).readFile p = none := by
  simp only [readFile, removeFile, List.find?_filter]
  have hf : fs.files.find? (fun a => (a.1 != p) && (a.1 == p)) = none := by
    rw [List.find?_eq_none]
    intro x _
    by_cases hx : x.1 = p <;> simp [hx]
  simp [hf]

theorem readFile_removeFile_ne (fs : FS) (p q : String) (h : q ≠ p) :
    (fs.removeFile p).readFile q = fs.readFile q := by
  simp only [readFile, removeFile, find?_filter_ne _ _ _ h]

@[simp] theorem readFile_ensureDir (fs : FS) (d q : String) :
    (fs.ensureDir d).readFile q = fs.readFile q := rfl

@[simp] theorem dirs_writeFile (fs : FS) (p : String) (d : FData) :
    (fs.writeFile p d).dirs = fs.dirs := rfl

@[simp] theorem dirs_removeFile (fs : FS) (p : String) :
    (fs.removeFile p).dirs = fs.dirs := rfl

theorem filter_eq_self_of_no_key (fs : FS) (p : String)
    (h : fs.readFile p = none) : fs.files.filter (fun e => e.1 != p) = fs.files := by
  have hf : fs.files.find? (fun e => e.1 == p) = none := by
    cases hf : fs.files.find? (fun e => e.1 == p) with
    | none => rfl
    | some e => simp [readFile, hf] at h
  rw [List.filter_eq_self]
  intro e he
  have := List.find?_eq_none.mp hf e he
  simpa using this

end FS

@[simp] theorem treeText_dir (n : String) (cs : List TreeNode) :
    treeText (.dir n cs)
      = "\x7b\"name\": \"" ++ n ++ "\", \"children\": ["
          ++ jsJoin "," (cs.map treeText) ++ "]\x7d" := by
  simp only [treeText, List.attach_map_val]

@[simp] theorem treeText_file (n h : String) :
    treeText (.file n h)
      = "\x7b\"name\": \"" ++ n ++ "\", \"hash\": \"" ++ h ++ "\"\x7d" := by
  simp only [treeText]

theorem takeWhile_append_all (p : Char → Bool) (x y : List Char)
    (hx : ∀ a ∈ x, p a = true) : (x ++ y).takeWhile p = x ++ y.takeWhile p := by
  induction x with
  | nil => simp
  | cons a l ih =>
    have ha : p a = true := hx a (by simp)
    simp only [List.cons_append, List.takeWhile_cons, ha, if_true]
    rw [ih (fun b hb => hx b (by simp [hb]))]

theorem dropWhile_append_all (p : Char → Bool) (x y : List Char)
    (hx : ∀ a ∈ x, p a = true) : (x ++ y).dropWhile p = y.dropWhile p := by
  induction x with
  | nil => simp
  | cons a l ih =>
    have ha : p a = true := hx a (by simp)
    simp only [List.cons_append, List.dropWhile_cons, ha, if_true]
    exact ih (fun b hb => hx b (by simp [hb]))

theorem scanQuoted_of_clean (x t : List Char) (hx : '"' ∉ x) :
    scanQuoted ('"' :: (x ++ '"' :: t)) = some (x, t) := by
  have hall : ∀ a ∈ x, (a != '"') = true := by
    intro a ha
    simp only [bne_iff_ne, ne_eq]
    exact fun hh => hx (hh ▸ ha)
  have hd : (x ++ '"' :: t).dropWhile (fun c => c != '"') = '"' :: t := by
    rw [dropWhile_append_all _ _ _ hall]
    simp [List.dropWhile_cons]
  have ht : (x ++ '"' :: t).takeWhile (fun c => c != '"') = x := by
    rw [takeWhile_append_all _ _ _ hall]
    simp [List.takeWhile_cons]
  show (match (x ++ '"' :: t).dropWhile (fun c => c != '"') with
    | '"' :: r => some ((x ++ '"' :: t).takeWhile (fun c => c != '"'), r)
    | _ => none) = some (x, t)
  rw [hd, ht]
  rfl

theorem itemsChars_eq (p : List String) :
    itemsChars p = '"' :: ((jsJoin "\",\"" p).data ++ '"' :: [']']) := by
  induction p with
  | nil => rfl
  | cons x p ih =>
    cases p with
    | nil => simp [itemsChars, jsJoin]
    | cons y rest =>
      simp only [itemsChars, jsJoin, ih]
      simp [String.data_append]

theorem parentFieldText_data (p : List String) :
    (parentFieldText p).data = '[' :: itemsChars p := by
  rw [itemsChars_eq]
  simp [parentFieldText, parentText, String.data_append]

theorem length_itemsChars (p : List String) : p.length ≤ (itemsChars p).length := by
  induction p with
  | nil => simp [itemsChars]
  | cons x p ih =>
    cases p with
    | nil => simp [itemsChars]
    | cons y rest =>
      simp only [itemsChars, List.length_cons, List.length_append] at *
      omega

theorem parseItems_succ (f : Nat) (cs : List Char) :
    parseItems (f + 1) cs
      = match scanQuoted cs with
        | none => none
        | some (body, r) =>
          match r with
          | [']'] => some [body]
          | ',' :: r2 => (parseItems f r2).map (fun xs => body :: xs)
          | _ => none := rfl

theorem parseItems_itemsChars (p : List String) (hne : p ≠ [])
    (hq : ∀ h ∈ p, '"' ∉ h.data) :
    ∀ fuel, p.length ≤ fuel →
      parseItems fuel (itemsChars p) = some (p.map String.data) := by
  induction p with
  | nil => exact absurd rfl hne
  | cons x p ih =>
    intro fuel hfuel
    obtain ⟨f, rfl⟩ : ∃ f, fuel = f + 1 := by
      cases fuel with
      | zero => simp at hfuel
      | succ f => exact ⟨f, rfl⟩
    have hx : '"' ∉ x.data := hq x (by simp)
    cases p with
    | nil =>
      show parseItems (f + 1) ('"' :: (x.data ++ '"' :: [']'])) = some [x.data]
      rw [parseItems_succ, scanQuoted_of_clean _ _ hx]
      rfl
    | cons y rest =>
      show parseItems (f + 1) ('"' :: (x.data ++ '"' :: ',' :: itemsChars (y :: rest)))
        = some (x.data :: (y :: rest).map String.data)
      rw [parseItems_succ, scanQuoted_of_clean _ _ hx]
      have hrec := ih (by simp) (fun h hh => hq h (List.mem_cons_of_mem x hh)) f
        (by simp at hfuel ⊢; omega)
      show (parseItems f (itemsChars (y :: rest))).map (fun xs => x.data :: xs)
        = some (x.data :: (y :: rest).map String.data)
      rw [hrec]
      rfl

/-- Note that `String.mk` undoes `String.data`. -/
theorem mk_data (s : String) : String.mk s.data = s := rfl

/-- The head of `itemsChars` is always a quote, so it is never just `]`. -/
theorem itemsChars_ne_bracket (p : List String) : itemsChars p ≠ [']'] := by
  cases p with
  | nil => simp [itemsChars]
  | cons x p =>
    cases p <;> simp [itemsChars]

theorem map_mk_map_data (l : List String) : (l.map String.data).map String.mk = l := by
  induction l with
  | nil => rfl
  | cons a l ih => simp only [List.map_cons, mk_data, ih]

/-- For at least one parent whose hashes contain no quote character, the
written parent text parses back to exactly those hashes, in order. -/
theorem parseStringArray_parentFieldText (p : List String) (hne : p ≠ [])
    (hq : ∀ h ∈ p, '"' ∉ h.data) :
    parseStringArray (parentFieldText p) = some p := by
  unfold parseStringArray
  rw [parentFieldText_data]
  show (if itemsChars p = [']'] then some []
    else (parseItems (itemsChars p).length (itemsChars p)).map
      (fun xs => xs.map String.mk)) = some p
  rw [if_neg (itemsChars_ne_bracket p),
    parseItems_itemsChars p hne hq _ (length_itemsChars p)]
  simp only [Option.map_some']
  rw [map_mk_map_data]

theorem visit_dir_eq (fields : List (String × JVal)) (cs : List JVal)
    (h : jlookup fields "children" = some (.jarr cs)) :
    visit (.jobj fields) = .dir (jstrOf (jlookup fields "name")) (cs.map visit) := by
  unfold visit
  split
  · rename_i cs' h'
    rw [h] at h'
    injection h' with h''
    cases h''
    rw [List.attach_map_val]
  · rename_i h'
    exact absurd h (h' cs)

theorem visit_file_eq (fields : List (String × JVal))
    (h : ∀ cs, jlookup fields "children" ≠ some (.jarr cs)) :
    visit (.jobj fields)
      = .file (jstrOf (jlookup fields "name")) (jstrOf (jlookup fields "hash")) := by
  unfold visit
  split
  · rename_i cs' h'
    exact absurd h' (h cs')
  · rfl

@[simp] theorem treeToJson_dir (n : String) (cs : List TreeNode) :
    treeToJson (.dir n cs)
      = .jobj [("name", .jstr n), ("children", .jarr (cs.map treeToJson))] := by
  simp only [treeToJson, List.attach_map_val]

@[simp] theorem treeToJson_file (n h : String) :
    treeToJson (.file n h) = .jobj [("name", .jstr n), ("hash", .jstr h)] := by
  simp only [treeToJson]

theorem jlookup_cons_self (k : String) (v : JVal) (fields : List (String × JVal)) :
    jlookup ((k, v) :: fields) k = some v := by
  simp [jlookup]

theorem jlookup_cons_ne (k k' : String) (v : JVal) (fields : List (String × JVal))
    (h : (k == k') = false) : jlookup ((k, v) :: fields) k' = jlookup fields k' := by
  have hh : ¬ (((k, v).1 == k') = true) := by simp [h]
  simp only [jlookup, List.find?_cons_of_neg (p := fun (e : String × JVal) => e.1 == k') _ hh]

theorem jlookup_nil (k : String) : jlookup [] k = none := rfl

theorem visit_treeToJson_le :
    ∀ (n : Nat) (t : TreeNode), sizeOf t ≤ n → visit (treeToJson t) = t := by
  intro n
  induction n with
  | zero =>
    intro t ht
    cases t <;> simp_arith at ht
  | succ n ih =>
    intro t ht
    cases t with
    | file nm h =>
      rw [treeToJson_file, visit_file_eq]
      · rw [jlookup_cons_self, jlookup_cons_ne _ _ _ _ (by decide), jlookup_cons_self]
        rfl
      · intro cs
        rw [jlookup_cons_ne _ _ _ _ (by decide), jlookup_cons_ne _ _ _ _ (by decide),
          jlookup_nil]
        exact fun hh => Option.noConfusion hh
    | dir nm cs =>
      rw [treeToJson_dir,
        visit_dir_eq _ _ (by rw [jlookup_cons_ne _ _ _ _ (by decide), jlookup_cons_self]),
        jlookup_cons_self]
      have hsz : sizeOf (TreeNode.dir nm cs) = 1 + sizeOf nm + sizeOf cs :=
        TreeNode.dir.sizeOf_spec nm cs
      have hcs : ∀ c ∈ cs, visit (treeToJson c) = c := by
        intro c hc
        have h1 : sizeOf c < sizeOf cs := List.sizeOf_lt_of_mem hc
        exact ih c (by omega)
      rw [List.map_map]
      have : cs.map (visit ∘ treeToJson) = cs.map id := List.map_congr_left hcs
      rw [this, List.map_id]
      rfl

/-- Re-typing a serialized tree (`visit` over its JSON value) is the
identity: node shape, child order, names and file hashes are preserved. -/
theorem visit_treeToJson (t : TreeNode) : visit (treeToJson t) = t :=
  visit_treeToJson_le (sizeOf t) t le_rfl

theorem find?_append_left (l1 l2 : List (String × JVal)) (k : String)
    (e : String × JVal) (h : l1.find? (fun e => e.1 == k) = some e) :
    (l1 ++ l2).find? (fun e => e.1 == k) = some e := by
  induction l1 with
  | nil => simp at h
  | cons a l ih =>
    by_cases ha : ((a.1 == k) = true)
    · rw [List.find?_cons_of_pos (p := fun (e : String × JVal) => e.1 == k) _ ha] at h
      rw [List.cons_append, List.find?_cons_of_pos (p := fun (e : String × JVal) => e.1 == k) _ ha]
      exact h
    · rw [List.find?_cons_of_neg (p := fun (e : String × JVal) => e.1 == k) _ ha] at h
      rw [List.cons_append, List.find?_cons_of_neg (p := fun (e : String × JVal) => e.1 == k) _ ha]
      exact ih h

theorem jlookup_append_left (l1 l2 : List (String × JVal)) (k : String) (v : JVal)
    (h : jlookup l1 k = some v) : jlookup (l1 ++ l2) k = some v := by
  unfold jlookup at *
  cases hf : l1.find? (fun e => e.1 == k) with
  | none => rw [hf] at h; simp at h
  | some e =>
    rw [hf] at h
    rw [find?_append_left _ _ _ _ hf]
    exact h

theorem readCommitOfJson_jobj (fields : List (String × JVal)) :
    readCommitOfJson (.jobj fields)
      = { hash := jstrOf (jlookup fields "hash")
          message := jstrOf (jlookup fields "message")
          date := match jlookup fields "date" with | some (.jnum n) => n | _ => 0
          root := visit ((jlookup fields "root").getD .jnull) } := rfl

theorem ReadCommit_root_mk (h m : String) (d : Int) (r : TreeNode) :
    ({ hash := h, message := m, date := d, root := r } : ReadCommit).root = r := rfl

theorem ReadCommit_date_mk (h m : String) (d : Int) (r : TreeNode) :
    ({ hash := h, message := m, date := d, root := r } : ReadCommit).date = d := rfl

theorem append_hblock_ne (s : String) : s ++ ".hblock" ≠ s := by
  intro h
  have hlen := congrArg (fun x : String => x.data.length) h
  simp only [String.data_append, List.length_append] at hlen
  rw [show (".hblock").data.length = 7 from rfl] at hlen
  omega

theorem pathExists_false_parts (fs : FS) (p : String)
    (h : fs.pathExists p = false) :
    fs.readFile p = none ∧ fs.dirs.contains p = false := by
  unfold FS.pathExists FS.fileExists at h
  constructor
  · cases hx : fs.readFile p
    · rfl
    · rw [hx] at h
      simp at h
  · cases hx : fs.dirs.contains p
    · rfl
    · rw [hx] at h
      simp at h

theorem pathExists_true_of_file (fs : FS) (p : String) (d : FData)
    (h : fs.readFile p = some d) : fs.pathExists p = true := by
  unfold FS.pathExists FS.fileExists
  rw [h]
  rfl

/-- After a successful `readObject`, the destination holds the stored
blob's bytes, whatever they are. -/
theorem readObject_dst_of_store (repo : RepoOpts) (h dst : String) (fs : FS) (c : FData)
    (hd : fs.readFile (Odb.getObjectPath repo.commondir h) = some c) :
    (Odb.readObject repo h dst fs).1 = .ok ()
      ∧ ((Odb.readObject repo h dst fs).2).readFile dst = some c := by
  have hpe : fs.pathExists (Odb.getObjectPath repo.commondir h) = true :=
    pathExists_true_of_file _ _ _ hd
  have hcopy : fs.copyFile (Odb.getObjectPath repo.commondir h) dst
      = some (fs.writeFile dst c) := by
    unfold FS.copyFile
    rw [hd]
    rfl
  unfold Odb.readObject
  simp only [hpe, if_true, hcopy]
  exact ⟨trivial, FS.readFile_writeFile_self _ _ _⟩

/-- The copy step of `writeObject` succeeds with the source's bytes, and the
hash step still sees those bytes. -/
theorem writeObject_copy_facts (repo : RepoOpts) (tmpName filepath : String)
    (fs : FS) (c : FData) (h1 : fs.readFile filepath = some c) :
    (fs.ensureDir (pjoin repo.commondir "tmp")).copyFile filepath
        (pjoin (pjoin repo.commondir "tmp") tmpName)
      = some ((fs.ensureDir (pjoin repo.commondir "tmp")).writeFile
          (pjoin (pjoin repo.commondir "tmp") tmpName) c)
      ∧ ((fs.ensureDir (pjoin repo.commondir "tmp")).writeFile
          (pjoin (pjoin repo.commondir "tmp") tmpName) c).readFile filepath = some c := by
  constructor
  · unfold FS.copyFile
    rw [FS.readFile_ensureDir, h1]
    rfl
  · by_cases hfp : filepath = pjoin (pjoin repo.commondir "tmp") tmpName
    · rw [hfp]
      exact FS.readFile_writeFile_self _ _ _
    · rw [FS.readFile_writeFile_ne _ _ _ _ hfp, FS.readFile_ensureDir]
      exact h1

theorem contains_cons_false (a b : String) (l : List String)
    (h1 : (b == a) = false) (h2 : l.contains b = false) :
    (a :: l).contains b = false := by
  show (a :: l).elem b = false
  rw [List.elem_cons, h1]
  exact h2

/-- Running `writeObject` on a store with nothing at the destination, compression
off: the temp copy is moved into place, so the blob lands at the sharded
path with the source's bytes, and the call returns the hash with the
worktree-relative path. -/
theorem writeObject_fresh_uncompressed (repo : RepoOpts) (hasher : Hasher)
    (tmpName filepath : String) (fs : FS) (c : FData)
    (hcomp : repo.compress = false)
    (h1 : fs.readFile filepath = some c)
    (ht1 : pjoin (pjoin repo.commondir "tmp") tmpName
      ≠ Odb.getObjectPath repo.commondir (hasher.fileHash c))
    (ht2 : pjoin repo.commondir "tmp" ≠ Odb.getObjectPath repo.commondir (hasher.fileHash c))
    (hpe : fs.pathExists (Odb.getObjectPath repo.commondir (hasher.fileHash c)) = false) :
    (Odb.writeObject repo hasher tmpName filepath fs).1
        = .ok (relativeTo repo.workdir filepath, hasher.fileHash c)
      ∧ ((Odb.writeObject repo hasher tmpName filepath fs).2).readFile
          (Odb.getObjectPath repo.commondir (hasher.fileHash c)) = some c := by
  obtain ⟨hcopy, hread2⟩ := writeObject_copy_facts repo tmpName filepath fs c h1
  obtain ⟨hfe, hcont⟩ := pathExists_false_parts fs _ hpe
  have hdst2 : ((fs.ensureDir (pjoin repo.commondir "tmp")).writeFile
      (pjoin (pjoin repo.commondir "tmp") tmpName) c).readFile
      (Odb.getObjectPath repo.commondir (hasher.fileHash c)) = none := by
    rw [FS.readFile_writeFile_ne _ _ _ _ (Ne.symm ht1), FS.readFile_ensureDir]
    exact hfe
  have hpe2 : ((fs.ensureDir (pjoin repo.commondir "tmp")).writeFile
      (pjoin (pjoin repo.commondir "tmp") tmpName) c).pathExists
      (Odb.getObjectPath repo.commondir (hasher.fileHash c)) = false := by
    unfold FS.pathExists FS.fileExists
    rw [hdst2]
    have hc2 : ((pjoin repo.commondir "tmp" :: fs.dirs).contains
        (Odb.getObjectPath repo.commondir (hasher.fileHash c))) = false :=
      contains_cons_false _ _ _ (beq_eq_false_iff_ne.mpr (Ne.symm ht2)) hcont
    show (false || ((pjoin repo.commondir "tmp" :: fs.dirs).contains
      (Odb.getObjectPath repo.commondir (hasher.fileHash c)))) = false
    rw [hc2]
    rfl
  have hmove : ((fs.ensureDir (pjoin repo.commondir "tmp")).writeFile
      (pjoin (pjoin repo.commondir "tmp") tmpName) c).move
        (pjoin (pjoin repo.commondir "tmp") tmpName)
        (Odb.getObjectPath repo.commondir (hasher.fileHash c))
      = ((((fs.ensureDir (pjoin repo.commondir "tmp")).writeFile
          (pjoin (pjoin repo.commondir "tmp") tmpName) c).removeFile
            (pjoin (pjoin repo.commondir "tmp") tmpName)).writeFile
          (Odb.getObjectPath repo.commondir (hasher.fileHash c)) c) := by
    unfold FS.move
    rw [FS.readFile_writeFile_self]
  simp only [Odb.writeObject, hcopy, hread2, hpe2, hcomp, hmove, Bool.false_eq_true,
    if_false]
  refine ⟨trivial, ?_⟩
  cases hhb : hasher.hashBlocks c with
  | none =>
    simp only [hhb]
    exact FS.readFile_writeFile_self _ _ _
  | some bs =>
    simp only [hhb]
    rw [FS.readFile_writeFile_ne _ _ _ _
      (Ne.symm (append_hblock_ne (Odb.getObjectPath repo.commondir (hasher.fileHash c))))]
    exact FS.readFile_writeFile_self _ _ _

/-- Running `writeObject` when an object already exists at the sharded destination:
the blob is left as-is, the temp copy is removed, the call returns the same
hash and worktree-relative path a first-time write would return — and the
only other write that can happen is the `.hblock` sidecar, which IS still
written whenever the hasher produced blocks (so the dedup branch is not
free of further I/O in that case). -/
theorem writeObject_dedup (repo : RepoOpts) (hasher : Hasher)
    (tmpName filepath : String) (fs : FS) (c c0 : FData)
    (h1 : fs.readFile filepath = some c)
    (hdst : fs.readFile (Odb.getObjectPath repo.commondir (hasher.fileHash c)) = some c0)
    (ht1 : pjoin (pjoin repo.commondir "tmp") tmpName
      ≠ Odb.getObjectPath repo.commondir (hasher.fileHash c))
    (htb : pjoin (pjoin repo.commondir "tmp") tmpName
      ≠ Odb.getObjectPath repo.commondir (hasher.fileHash c) ++ ".hblock") :
    (Odb.writeObject repo hasher tmpName filepath fs).1
        = .ok (relativeTo repo.workdir filepath, hasher.fileHash c)
      ∧ ((Odb.writeObject repo hasher tmpName filepath fs).2).readFile
          (Odb.getObjectPath repo.commondir (hasher.fileHash c)) = some c0
      ∧ ((Odb.writeObject repo hasher tmpName filepath fs).2).readFile
          (pjoin (pjoin repo.commondir "tmp") tmpName) = none
      ∧ (∀ q, q ≠ pjoin (pjoin repo.commondir "tmp") tmpName →
          q ≠ Odb.getObjectPath repo.commondir (hasher.fileHash c) ++ ".hblock" →
          ((Odb.writeObject repo hasher tmpName filepath fs).2).readFile q = fs.readFile q)
      ∧ (∀ bs, hasher.hashBlocks c = some bs →
          ((Odb.writeObject repo hasher tmpName filepath fs).2).readFile
            (Odb.getObjectPath repo.commondir (hasher.fileHash c) ++ ".hblock")
              = some (.raw (Odb.renderBlocks bs)))
      ∧ (hasher.hashBlocks c = none →
          ∀ q, q ≠ pjoin (pjoin repo.commondir "tmp") tmpName →
            ((Odb.writeObject repo hasher tmpName filepath fs).2).readFile q
              = fs.readFile q) := by
  obtain ⟨hcopy, hread2⟩ := writeObject_copy_facts repo tmpName filepath fs c h1
  have hdst2 : ((fs.ensureDir (pjoin repo.commondir "tmp")).writeFile
      (pjoin (pjoin repo.commondir "tmp") tmpName) c).readFile
      (Odb.getObjectPath repo.commondir (hasher.fileHash c)) = some c0 := by
    rw [FS.readFile_writeFile_ne _ _ _ _ (Ne.symm ht1), FS.readFile_ensureDir]
    exact hdst
  have hpe2 : ((fs.ensureDir (pjoin repo.commondir "tmp")).writeFile
      (pjoin (pjoin repo.commondir "tmp") tmpName) c).pathExists
      (Odb.getObjectPath repo.commondir (hasher.fileHash c)) = true :=
    pathExists_true_of_file _ _ _ hdst2
  have hq2 : ∀ q, q ≠ pjoin (pjoin repo.commondir "tmp") tmpName →
      (((fs.ensureDir (pjoin repo.commondir "tmp")).writeFile
          (pjoin (pjoin repo.commondir "tmp") tmpName) c).removeFile
            (pjoin (pjoin repo.commondir "tmp") tmpName)).readFile q = fs.readFile q := by
    intro q hq
    rw [FS.readFile_removeFile_ne _ _ _ hq, FS.readFile_writeFile_ne _ _ _ _ hq,
      FS.readFile_ensureDir]
  simp only [Odb.writeObject, hcopy, hread2, hpe2, if_true]
  cases hhb : hasher.hashBlocks c with
  | none =>
    refine ⟨trivial, ?_, ?_, ?_, ?_, ?_⟩
    · exact hq2 _ (Ne.symm ht1) ▸ hdst
    · exact FS.readFile_removeFile_self _ _
    · intro q hq _
      exact hq2 q hq
    · intro bs hbs
      exact Option.noConfusion hbs
    · intro _ q hq
      exact hq2 q hq
  | some bs =>
    refine ⟨trivial, ?_, ?_, ?_, ?_, ?_⟩
    · rw [FS.readFile_writeFile_ne _ _ _ _
        (Ne.symm (append_hblock_ne (Odb.getObjectPath repo.commondir (hasher.fileHash c))))]
      exact hq2 _ (Ne.symm ht1) ▸ hdst
    · rw [FS.readFile_writeFile_ne _ _ _ _ htb]
      exact FS.readFile_removeFile_self _ _
    · intro q hq hqb
      rw [FS.readFile_writeFile_ne _ _ _ _ hqb]
      exact hq2 q hq
    · intro bs' hbs'
      injection hbs' with hbs''
      rw [← hbs'']
      exact FS.readFile_writeFile_self _ _ _
    · intro hnone
      exact Option.noConfusion hnone

/-! ### Claim theorems -/

/-- C1 (amended): with compression off, `writeObject(src)` followed by
`readObject(h, dst)` with the returned hash yields a file at `dst`
byte-identical to `src`, for every store that is hash-consistent at the
destination (nothing at the sharded path, or the same bytes — which is what
content addressing assumes of a collision-free hash).  With the compress
option enabled the round-trip fails: see the counterexample, where the
destination receives the codec output because `readObject` copies the
stored blob without decompressing. -/
theorem writeObject_readObject_roundtrip_uncompressed
    (repo : RepoOpts) (hasher : Hasher) (tmpName filepath dst : String) (fs : FS) (c : FData)
    (hcomp : repo.compress = false)
    (h1 : fs.readFile filepath = some c)
    (ht1 : pjoin (pjoin repo.commondir "tmp") tmpName
      ≠ Odb.getObjectPath repo.commondir (hasher.fileHash c))
    (ht2 : pjoin repo.commondir "tmp" ≠ Odb.getObjectPath repo.commondir (hasher.fileHash c))
    (htb : pjoin (pjoin repo.commondir "tmp") tmpName
      ≠ Odb.getObjectPath repo.commondir (hasher.fileHash c) ++ ".hblock")
    (hstore : fs.pathExists (Odb.getObjectPath repo.commondir (hasher.fileHash c)) = false
      ∨ fs.readFile (Odb.getObjectPath repo.commondir (hasher.fileHash c)) = some c) :
    (Odb.writeObject repo hasher tmpName filepath fs).1
        = .ok (relativeTo repo.workdir filepath, hasher.fileHash c)
      ∧ ((Odb.readObject repo (hasher.fileHash c) dst
            ((Odb.writeObject repo hasher tmpName filepath fs).2)).2).readFile dst
          = some c := by
  have hmain : (Odb.writeObject repo hasher tmpName filepath fs).1
        = .ok (relativeTo repo.workdir filepath, hasher.fileHash c)
      ∧ ((Odb.writeObject repo hasher tmpName filepath fs).2).readFile
          (Odb.getObjectPath repo.commondir (hasher.fileHash c)) = some c := by
    cases hstore with
    | inl hpe =>
      exact writeObject_fresh_uncompressed repo hasher tmpName filepath fs c hcomp h1 ht1 ht2 hpe
    | inr hsome =>
      obtain ⟨r1, r2, -, -, -, -⟩ :=
        writeObject_dedup repo hasher tmpName filepath fs c c h1 hsome ht1 htb
      exact ⟨r1, r2⟩
  exact ⟨hmain.1,
    (readObject_dst_of_store repo (hasher.fileHash c) dst _ c hmain.2).2⟩

theorem writeObject_readObject_roundtrip_uncompressed_witness :
    ((⟨"cd", "w", false⟩ : RepoOpts).compress = false
        ∧ FS.readFile ⟨[("w/a", .raw "hi")], []⟩ "w/a" = some (.raw "hi")
        ∧ FS.pathExists ⟨[("w/a", .raw "hi")], []⟩ (Odb.getObjectPath "cd" "aabbcc") = false)
      ∧ ((Odb.writeObject ⟨"cd", "w", false⟩ ⟨fun _ => "aabbcc", fun _ => none⟩ "t1" "w/a"
            ⟨[("w/a", .raw "hi")], []⟩).1
          = .ok (relativeTo "w" "w/a", "aabbcc")
        ∧ ((Odb.readObject ⟨"cd", "w", false⟩ "aabbcc" "out"
            ((Odb.writeObject ⟨"cd", "w", false⟩ ⟨fun _ => "aabbcc", fun _ => none⟩ "t1" "w/a"
              ⟨[("w/a", .raw "hi")], []⟩).2)).2).readFile "out" = some (.raw "hi")) :=
  ⟨⟨rfl, by decide, by decide⟩,
    writeObject_readObject_roundtrip_uncompressed ⟨"cd", "w", false⟩
      ⟨fun _ => "aabbcc", fun _ => none⟩ "t1" "w/a" "out" ⟨[("w/a", .raw "hi")], []⟩
      (.raw "hi") rfl (by decide) (by decide) (by decide) (by decide)
      (Or.inl (by decide))⟩

/-- C1 counterexample: with the compress option enabled the round-trip
fails — `writeObject` compresses the temp copy into the store
(`zipFile(tmpPath, dstFile)`), but `readObject` copies the stored blob to
the destination without decompressing, so the destination holds the codec
output instead of the original bytes. -/
theorem writeObject_readObject_compress_not_identity :
    ((Odb.readObject ⟨"cd", "w", true⟩ "aabbcc" "out"
        ((Odb.writeObject ⟨"cd", "w", true⟩ ⟨fun _ => "aabbcc", fun _ => none⟩
          "t1" "w/a" ⟨[("w/a", .raw "hello")], []⟩).2)).2).readFile "out"
        = some (.raw "gzip:hello")
      ∧ some (FData.raw "gzip:hello") ≠ some (FData.raw "hello") :=
  ⟨rfl, by decide⟩

/-- C2 (amended/corrected): when an object already exists at the sharded
destination, the temp copy is discarded, the blob at the destination is not
rewritten (the store keeps its single copy), and the call returns the same
hash and worktree-relative path a first-time write would return; but the
dedup branch is NOT free of further I/O: whenever the hasher produced chunk
hash blocks, the `.hblock` sidecar under objects/ is still written.  Apart
from the temp file and that sidecar path, no file is created or modified. -/
theorem writeObject_dedup_behavior (repo : RepoOpts) (hasher : Hasher)
    (tmpName filepath : String) (fs : FS) (c c0 : FData)
    (h1 : fs.readFile filepath = some c)
    (hdst : fs.readFile (Odb.getObjectPath repo.commondir (hasher.fileHash c)) = some c0)
    (ht1 : pjoin (pjoin repo.commondir "tmp") tmpName
      ≠ Odb.getObjectPath repo.commondir (hasher.fileHash c))
    (htb : pjoin (pjoin repo.commondir "tmp") tmpName
      ≠ Odb.getObjectPath repo.commondir (hasher.fileHash c) ++ ".hblock") :
    (Odb.writeObject repo hasher tmpName filepath fs).1
        = .ok (relativeTo repo.workdir filepath, hasher.fileHash c)
      ∧ ((Odb.writeObject repo hasher tmpName filepath fs).2).readFile
          (Odb.getObjectPath repo.commondir (hasher.fileHash c)) = some c0
      ∧ ((Odb.writeObject repo hasher tmpName filepath fs).2).readFile
          (pjoin (pjoin repo.commondir "tmp") tmpName) = none
      ∧ (∀ q, q ≠ pjoin (pjoin repo.commondir "tmp") tmpName →
          q ≠ Odb.getObjectPath repo.commondir (hasher.fileHash c) ++ ".hblock" →
          ((Odb.writeObject repo hasher tmpName filepath fs).2).readFile q = fs.readFile q)
      ∧ (∀ bs, hasher.hashBlocks c = some bs →
          ((Odb.writeObject repo hasher tmpName filepath fs).2).readFile
            (Odb.getObjectPath repo.commondir (hasher.fileHash c) ++ ".hblock")
              = some (.raw (Odb.renderBlocks bs)))
      ∧ (hasher.hashBlocks c = none →
          ∀ q, q ≠ pjoin (pjoin repo.commondir "tmp") tmpName →
            ((Odb.writeObject repo hasher tmpName filepath fs).2).readFile q
              = fs.readFile q) :=
  writeObject_dedup repo hasher tmpName filepath fs c c0 h1 hdst ht1 htb

theorem writeObject_dedup_behavior_witness :
    (FS.readFile ⟨[("w/a", FData.raw "hello"),
          ("cd/objects/aa/bb/aabbcc", FData.raw "hello")], []⟩ "w/a"
        = some (.raw "hello")
      ∧ FS.readFile ⟨[("w/a", FData.raw "hello"),
          ("cd/objects/aa/bb/aabbcc", FData.raw "hello")], []⟩
          (Odb.getObjectPath "cd" "aabbcc") = some (.raw "hello"))
      ∧ (Odb.writeObject ⟨"cd", "w", false⟩
            ⟨fun _ => "aabbcc", fun _ => some [⟨0, 5, "bh"⟩]⟩ "t1" "w/a"
            ⟨[("w/a", FData.raw "hello"),
              ("cd/objects/aa/bb/aabbcc", FData.raw "hello")], []⟩).1
          = .ok (relativeTo "w" "w/a", "aabbcc")
      ∧ ((Odb.writeObject ⟨"cd", "w", false⟩
            ⟨fun _ => "aabbcc", fun _ => some [⟨0, 5, "bh"⟩]⟩ "t1" "w/a"
            ⟨[("w/a", FData.raw "hello"),
              ("cd/objects/aa/bb/aabbcc", FData.raw "hello")], []⟩).2).readFile
          (Odb.getObjectPath "cd" "aabbcc") = some (.raw "hello")
      ∧ ((Odb.writeObject ⟨"cd", "w", false⟩
            ⟨fun _ => "aabbcc", fun _ => some [⟨0, 5, "bh"⟩]⟩ "t1" "w/a"
            ⟨[("w/a", FData.raw "hello"),
              ("cd/objects/aa/bb/aabbcc", FData.raw "hello")], []⟩).2).readFile
          (pjoin (pjoin "cd" "tmp") "t1") = none
      ∧ ((Odb.writeObject ⟨"cd", "w", false⟩
            ⟨fun _ => "aabbcc", fun _ => some [⟨0, 5, "bh"⟩]⟩ "t1" "w/a"
            ⟨[("w/a", FData.raw "hello"),
              ("cd/objects/aa/bb/aabbcc", FData.raw "hello")], []⟩).2).readFile
          (Odb.getObjectPath "cd" "aabbcc" ++ ".hblock")
          = some (.raw (Odb.renderBlocks [⟨0, 5, "bh"⟩])) := by
  have h := writeObject_dedup_behavior ⟨"cd", "w", false⟩
    ⟨fun _ => "aabbcc", fun _ => some [⟨0, 5, "bh"⟩]⟩ "t1" "w/a"
    ⟨[("w/a", FData.raw "hello"), ("cd/objects/aa/bb/aabbcc", FData.raw "hello")], []⟩
    (.raw "hello") (.raw "hello") (by decide) (by decide) (by decide) (by decide)
  exact ⟨⟨by decide, by decide⟩, h.1, h.2.1, h.2.2.1, h.2.2.2.2.1 [⟨0, 5, "bh"⟩] rfl⟩

/-- C2 counterexample: in the pure-dedup case further I/O DOES occur when
the hasher produced hash blocks — the `.hblock` sidecar, a path under
objects/, is created by the very call whose destination object already
existed. -/
theorem writeObject_dedup_writes_sidecar :
    FS.readFile ⟨[("w/a", FData.raw "hello"),
        ("cd/objects/aa/bb/aabbcc", FData.raw "hello")], []⟩
        "cd/objects/aa/bb/aabbcc.hblock" = none
      ∧ ((Odb.writeObject ⟨"cd", "w", false⟩
            ⟨fun _ => "aabbcc", fun _ => some [⟨0, 5, "bh"⟩]⟩ "t1" "w/a"
            ⟨[("w/a", FData.raw "hello"),
              ("cd/objects/aa/bb/aabbcc", FData.raw "hello")], []⟩).2).readFile
          "cd/objects/aa/bb/aabbcc.hblock" = some (.raw "0;5;bh;") :=
  ⟨rfl, rfl⟩

/-- C3: for every commit (whose message and tag strings respect the
serialization's quoting rules, which the JSON-value level assumes),
`writeCommit` followed by `readCommits` yields a commit whose reconstructed
tree equals the original tree — same node shape (a node is a directory iff
its persisted form has a `children` field), same child order, same file
hashes — and whose date denotes the same epoch-millisecond instant. -/
theorem writeCommit_readCommits_tree_roundtrip (c : CommitRec) :
    (readCommitOfJson (commitJson c)).root = c.root
      ∧ (readCommitOfJson (commitJson c)).date = c.date := by
  have h5root : jlookup [("hash", JVal.jstr c.hash), ("message", JVal.jstr c.message),
      ("date", JVal.jnum c.date),
      ("parent", JVal.jarr (((parseStringArray (parentFieldText c.parent)).getD []).map JVal.jstr)),
      ("root", treeToJson c.root)] "root" = some (treeToJson c.root) := by
    rw [jlookup_cons_ne _ _ _ _ (by decide), jlookup_cons_ne _ _ _ _ (by decide),
      jlookup_cons_ne _ _ _ _ (by decide), jlookup_cons_ne _ _ _ _ (by decide),
      jlookup_cons_self]
  have h5date : jlookup [("hash", JVal.jstr c.hash), ("message", JVal.jstr c.message),
      ("date", JVal.jnum c.date),
      ("parent", JVal.jarr (((parseStringArray (parentFieldText c.parent)).getD []).map JVal.jstr)),
      ("root", treeToJson c.root)] "date" = some (JVal.jnum c.date) := by
    rw [jlookup_cons_ne _ _ _ _ (by decide), jlookup_cons_ne _ _ _ _ (by decide),
      jlookup_cons_self]
  have hroot := jlookup_append_left _
    (match c.userData with
     | none => []
     | some u => [("userData", JVal.jobj (u.map (fun e => (e.1, primJson e.2))))]) _ _
    (jlookup_append_left _
      (match c.tags with
       | none => []
       | some l => [("tags", JVal.jarr (l.map JVal.jstr))]) _ _ h5root)
  have hdate := jlookup_append_left _
    (match c.userData with
     | none => []
     | some u => [("userData", JVal.jobj (u.map (fun e => (e.1, primJson e.2))))]) _ _
    (jlookup_append_left _
      (match c.tags with
       | none => []
       | some l => [("tags", JVal.jarr (l.map JVal.jstr))]) _ _ h5date)
  unfold commitJson
  rw [readCommitOfJson_jobj]
  refine ⟨?_, ?_⟩
  · rw [ReadCommit_root_mk, hroot]
    exact visit_treeToJson c.root
  · rw [ReadCommit_date_mk, hdate]

theorem openRepo_eq_config (commondir : String) (fs : FS) (c : Config)
    (h : fs.readFile (pjoin commondir "config") = some (.config c)) :
    Odb.openRepo commondir fs
      = if c.version = 1 then .error (.unsupportedVersion c.version) else .ok c := by
  unfold Odb.openRepo
  rw [h]

/-- C4 counterexample: a stored configuration record with schema version 0 —
below the claimed minimum of 2 — is accepted by `open`, which loads it and
returns the handle instead of failing with UnsupportedVersion. -/
theorem open_accepts_version_zero :
    Odb.openRepo "c4" ⟨[(pjoin "c4" "config", .config ⟨0, false, true⟩)], []⟩
        = .ok ⟨0, false, true⟩
      ∧ (0 : Int) < 2 :=
  ⟨rfl, by decide⟩

/-- C4 (amended): `open` fails with UnsupportedVersion exactly when the
stored schema version equals 1 (the source checks `version === 1` only);
any other stored version — version 0 included — is accepted and the handle
carries the configuration record as stored. -/
theorem open_version_check (commondir : String) (fs : FS) (c : Config)
    (h : fs.readFile (pjoin commondir "config") = some (.config c)) :
    (Odb.openRepo commondir fs = .error (.unsupportedVersion c.version) ↔ c.version = 1)
      ∧ (c.version ≠ 1 → Odb.openRepo commondir fs = .ok c) := by
  rw [openRepo_eq_config commondir fs c h]
  refine ⟨⟨?_, ?_⟩, ?_⟩
  · intro he
    by_cases hv : c.version = 1
    · exact hv
    · rw [if_neg hv] at he
      exact Except.noConfusion he
  · intro hv
    rw [if_pos hv]
  · intro hv
    rw [if_neg hv]

theorem open_version_check_witness :
    (FS.readFile ⟨[(pjoin "w4" "config", .config ⟨1, false, true⟩)], []⟩ (pjoin "w4" "config")
        = some (.config ⟨1, false, true⟩))
      ∧ ((Odb.openRepo "w4" ⟨[(pjoin "w4" "config", .config ⟨1, false, true⟩)], []⟩
            = .error (.unsupportedVersion (Config.mk 1 false true).version)
          ↔ (Config.mk 1 false true).version = 1)
         ∧ ((Config.mk 1 false true).version ≠ 1 →
            Odb.openRepo "w4" ⟨[(pjoin "w4" "config", .config ⟨1, false, true⟩)], []⟩
              = .ok ⟨1, false, true⟩)) :=
  ⟨by decide, open_version_check "w4" ⟨[(pjoin "w4" "config", .config ⟨1, false, true⟩)], []⟩
    ⟨1, false, true⟩ (by decide)⟩

/-- C5 counterexample: with a plain file occupying the metadata path (and no
directory there), `create` still fails with AlreadyExists — the source
checks `fse.pathExists`, not that the metadata *directory* exists — so
failing is not equivalent to the metadata directory existing. -/
theorem create_fails_on_file_at_commondir :
    (Odb.create "sf" ⟨[("sf", .raw "occupied")], []⟩).1 = .error .alreadyExists
      ∧ (⟨[("sf", .raw "occupied")], []⟩ : FS).dirs.contains "sf" = false :=
  ⟨rfl, rfl⟩

/-- C5 (amended): `create` fails with AlreadyExists exactly when some entry
(file or directory) exists at the target metadata path; on that failure the
filesystem is untouched, so a second `create` on the same target fails with
AlreadyExists and leaves the store from the first call exactly as it was. -/
theorem create_already_exists (commondir : String) (fs : FS) :
    ((Odb.create commondir fs).1 = .error .alreadyExists ↔ fs.pathExists commondir = true)
      ∧ (fs.pathExists commondir = true → (Odb.create commondir fs).2 = fs)
      ∧ (fs.pathExists commondir = false →
          (Odb.create commondir fs).1 = .ok defaultConfig
            ∧ (Odb.create commondir ((Odb.create commondir fs).2)).1 = .error .alreadyExists
            ∧ (Odb.create commondir ((Odb.create commondir fs).2)).2
                = (Odb.create commondir fs).2) := by
  by_cases hp : fs.pathExists commondir = true
  · refine ⟨⟨fun _ => hp, fun _ => ?_⟩, fun _ => ?_, fun hf => absurd hp (by rw [hf]; decide)⟩
    · unfold Odb.create
      rw [if_pos hp]
    · unfold Odb.create
      rw [if_pos hp]
  · have hfst : (Odb.create commondir fs).1 = .ok defaultConfig := by
      unfold Odb.create
      rw [if_neg hp]
    have hsnd : ((Odb.create commondir fs).2).pathExists commondir = true := by
      unfold Odb.create
      rw [if_neg hp]
      have hmem : commondir ∈ (((((fs.ensureDir commondir).ensureDir
          (pjoin commondir "objects")).ensureDir
          (pjoin commondir "versions")).ensureDir
          (pjoin commondir "hooks")).ensureDir (pjoin commondir "refs")).dirs := by
        simp [FS.ensureDir]
      have hc : ((((((fs.ensureDir commondir).ensureDir
          (pjoin commondir "objects")).ensureDir
          (pjoin commondir "versions")).ensureDir
          (pjoin commondir "hooks")).ensureDir (pjoin commondir "refs")).dirs).contains
            commondir = true :=
        List.elem_eq_true_of_mem hmem
      show (_ : FS).pathExists commondir = true
      simp only [FS.pathExists, FS.dirs_writeFile, hc, Bool.or_true]
    refine ⟨⟨fun he => ?_, fun hpe => absurd hpe hp⟩, fun hpe => absurd hpe hp, fun _ => ?_⟩
    · rw [hfst] at he
      exact Except.noConfusion he
    · refine ⟨hfst, ?_, ?_⟩
      · generalize hgen : (Odb.create commondir fs).2 = fs2 at hsnd ⊢
        unfold Odb.create
        rw [if_pos hsnd]
      · generalize hgen : (Odb.create commondir fs).2 = fs2 at hsnd ⊢
        unfold Odb.create
        rw [if_pos hsnd]

theorem create_already_exists_witness :
    (FS.pathExists ⟨[], []⟩ "w5" = false)
      ∧ ((Odb.create "w5" (⟨[], []⟩ : FS)).1 = .ok defaultConfig
         ∧ (Odb.create "w5" ((Odb.create "w5" (⟨[], []⟩ : FS)).2)).1 = .error .alreadyExists
         ∧ (Odb.create "w5" ((Odb.create "w5" (⟨[], []⟩ : FS)).2)).2
             = (Odb.create "w5" (⟨[], []⟩ : FS)).2) :=
  ⟨by decide, (create_already_exists "w5" ⟨[], []⟩).2.2 (by decide)⟩

/-- C10: a freshly created repository opens immediately — `create` writes
`defaultConfig` (version 2), `open` accepts it (2 ≠ 1), and the loaded
configuration is exactly the record `create` wrote. -/
theorem create_then_open_roundtrip (commondir : String) (fs : FS)
    (h : fs.pathExists commondir = false) :
    (Odb.create commondir fs).1 = .ok defaultConfig
      ∧ Odb.openRepo commondir ((Odb.create commondir fs).2) = .ok defaultConfig
      ∧ defaultConfig.version = 2 := by
  have hneg : ¬ (fs.pathExists commondir = true) := by
    rw [h]
    decide
  refine ⟨?_, ?_, by decide⟩
  · unfold Odb.create
    rw [if_neg hneg]
  · have hconf : ((Odb.create commondir fs).2).readFile (pjoin commondir "config")
        = some (.config defaultConfig) := by
      unfold Odb.create
      rw [if_neg hneg]
      exact FS.readFile_writeFile_self _ _ _
    rw [openRepo_eq_config commondir _ defaultConfig hconf]
    rfl

theorem create_then_open_roundtrip_witness :
    (FS.pathExists ⟨[], []⟩ "w10" = false)
      ∧ ((Odb.create "w10" (⟨[], []⟩ : FS)).1 = .ok defaultConfig
         ∧ Odb.openRepo "w10" ((Odb.create "w10" (⟨[], []⟩ : FS)).2) = .ok defaultConfig
         ∧ defaultConfig.version = 2) :=
  ⟨by decide, create_then_open_roundtrip "w10" ⟨[], []⟩ (by decide)⟩

/-- C9 counterexample: with `HEAD` holding content with surrounding
whitespace, `readHeadReference` returns it verbatim — the source returns
`buf.toString()` without trimming — contradicting the claimed trimming. -/
theorem readHeadReference_not_trimmed :
    Odb.readHeadReference "c9" ⟨[(pjoin "c9" "HEAD", .raw " main ")], []⟩ = some " main "
      ∧ " main " ≠ "main" := by decide

/-- C9 (amended): `readHeadReference` returns the exact, untrimmed contents
of the fixed HEAD file at the metadata root; if the file is absent it
returns `none` (soft failure) rather than propagating an error. -/
theorem readHeadReference_exact_contents (commondir : String) (fs : FS) (s : String) :
    (fs.readFile (pjoin commondir "HEAD") = some (.raw s) →
       Odb.readHeadReference commondir fs = some s)
      ∧ (fs.readFile (pjoin commondir "HEAD") = none →
       Odb.readHeadReference commondir fs = none) := by
  constructor
  · intro h
    unfold Odb.readHeadReference
    rw [h]
    rfl
  · intro h
    unfold Odb.readHeadReference
    rw [h]

theorem readHeadReference_exact_contents_witness :
    (FS.readFile ⟨[(pjoin "w9" "HEAD", .raw " dev ")], []⟩ (pjoin "w9" "HEAD")
        = some (.raw " dev "))
      ∧ Odb.readHeadReference "w9" ⟨[(pjoin "w9" "HEAD", .raw " dev ")], []⟩ = some " dev " :=
  ⟨by decide, (readHeadReference_exact_contents "w9"
    ⟨[(pjoin "w9" "HEAD", .raw " dev ")], []⟩ " dev ").1 (by decide)⟩

/-- C6 counterexample: a commit whose tags field is a present-but-empty
collection still gets a persisted `"tags"` field — an empty array is
JS-truthy, so `writeCommit` streams `,"tags": [ ]` instead of omitting it:
the streamed text contains `"tags"`, while the same commit with the field
absent does not. -/
theorem empty_tags_array_persisted :
    tagsSegment (some ([] : List String)) = ",\"tags\": [ ]"
      ∧ listHasSub (writeCommitText
            { hash := "h", message := "m", date := 0, parent := [],
              root := .file "f" "fh", tags := some [], userData := none }).data
          ("\"tags\"").data = true
      ∧ listHasSub (writeCommitText
            { hash := "h", message := "m", date := 0, parent := [],
              root := .file "f" "fh", tags := none, userData := none }).data
          ("\"tags\"").data = false := by
  refine ⟨by decide, ?_, ?_⟩
  · simp only [writeCommitText, treeText_file]
    decide
  · simp only [writeCommitText, treeText_file]
    decide

/-- C6 (amended): `writeCommit` omits the tags field exactly when the commit
has no tags collection at all (JS-falsy `commit.tags`); a present-but-empty
collection is persisted as an empty `"tags"` array. -/
theorem tags_field_omitted_iff_absent (tg : Option (List String)) :
    (tagsSegment tg = "" ↔ tg = none)
      ∧ (∀ l, tagsSegment (some l) = ",\"tags\": [" ++ tagsInner l ++ " ]")
      ∧ (∀ c : CommitRec, writeCommitText c
          = "\x7b"
            ++ "\"hash\": \"" ++ c.hash ++ "\",\n"
            ++ "                  \"message\": \"" ++ c.message ++ "\",\n"
            ++ "                  \"date\": " ++ toString c.date ++ ",\n"
            ++ "                  \"parent\": [" ++ parentText c.parent ++ "], \"root\":"
            ++ treeText c.root
            ++ tagsSegment c.tags
            ++ userDataSegment c.userData
            ++ "\x7d") := by
  refine ⟨⟨?_, ?_⟩, fun l => rfl, fun c => rfl⟩
  · intro h
    cases tg with
    | none => rfl
    | some l =>
      rw [show tagsSegment (some l)
        = ",\"tags\": [" ++ tagsInner l ++ " ]" from rfl] at h
      have h' := congrArg String.data h
      rw [String.data_append, show ("" : String).data = [] from rfl] at h'
      have h3 := (List.append_eq_nil.mp h').2
      exact absurd h3 (by decide)
  · intro h
    rw [h]
    rfl

/-- C7 counterexample: with zero parent hashes the written parent text is
`[""]`, which denotes a one-element array holding the empty string — not
the claimed empty array. -/
theorem empty_parent_persisted_as_singleton :
    parentFieldText [] = "[\"\"]"
      ∧ parseStringArray (parentFieldText []) = some [""]
      ∧ ([""] : List String) ≠ [] := by decide

/-- C7 (amended): for every commit with at least one parent (hashes free of
the quote character, as hex content hashes are), the `parent` field written
by `writeCommit` denotes an array of exactly the commit's parent hashes in
their original order; with zero parents the written field denotes `[""]`
instead of the empty array. -/
theorem parent_field_roundtrip (p : List String) (hne : p ≠ [])
    (hq : ∀ h ∈ p, '"' ∉ h.data) :
    parseStringArray (parentFieldText p) = some p :=
  parseStringArray_parentFieldText p hne hq

theorem parent_field_roundtrip_witness :
    (["aa", "bb"] ≠ ([] : List String))
      ∧ parseStringArray (parentFieldText ["aa", "bb"]) = some ["aa", "bb"] :=
  ⟨by decide, parent_field_roundtrip ["aa", "bb"] (by decide) (by decide)⟩

/-- C8: `writeReference` refuses to persist a detached ref (name `HEAD`) —
a no-op, not a failure; it fails with MissingHash exactly when the ref is
not detached and its hash is JS-falsy (absent or empty); otherwise it writes
`{hash, start (omitted when falsy), userData (defaulting to the empty
object)}` to the file named after the reference under `refs/`, overwriting
prior content. -/
theorem writeReference_contract (commondir : String) (ref : Odb.Reference) (fs : FS) :
    (ref.isDetached = true → Odb.writeReference commondir ref fs = (.ok (), fs))
      ∧ ((Odb.writeReference commondir ref fs).1 = .error .missingHash
          ↔ (ref.isDetached = false ∧ Odb.strFalsy ref.hash = true))
      ∧ (∀ h, ref.isDetached = false → ref.hash = some h → h ≠ "" →
          Odb.writeReference commondir ref fs
            = (.ok (), fs.writeFile (pjoin (pjoin commondir "refs") ref.refName)
                (.refData { hash := h
                            start := if Odb.strFalsy ref.start then none else ref.start
                            userData := ref.userData.getD UData.empty }))) := by
  by_cases hd : ref.isDetached = true
  · refine ⟨fun _ => ?_, ⟨fun he => ?_, fun ⟨hnd, _⟩ => ?_⟩, fun h hnd _ _ => ?_⟩
    · unfold Odb.writeReference
      rw [if_pos hd]
    · unfold Odb.writeReference at he
      rw [if_pos hd] at he
      exact Except.noConfusion he
    · rw [hd] at hnd
      exact Bool.noConfusion hnd
    · rw [hd] at hnd
      exact Bool.noConfusion hnd
  · have hd' : ref.isDetached = false := by
      cases hv : ref.isDetached
      · rfl
      · exact absurd hv hd
    by_cases hf : Odb.strFalsy ref.hash = true
    · refine ⟨fun hdt => absurd hdt hd, ⟨fun _ => ⟨hd', hf⟩, fun _ => ?_⟩, fun h hnd hh hne => ?_⟩
      · unfold Odb.writeReference
        rw [if_neg hd, if_pos hf]
      · rw [hh] at hf
        unfold Odb.strFalsy at hf
        exact absurd (by simpa using hf) hne
    · have hf' : Odb.strFalsy ref.hash = false := by
        cases hv : Odb.strFalsy ref.hash
        · rfl
        · exact absurd hv hf
      refine ⟨fun hdt => absurd hdt hd, ⟨fun he => ?_, fun ⟨_, hft⟩ => absurd hft hf⟩,
        fun h hnd hh hne => ?_⟩
      · unfold Odb.writeReference at he
        rw [if_neg hd, if_neg hf] at he
        exact Except.noConfusion he
      · unfold Odb.writeReference
        rw [if_neg hd, if_neg hf, hh]
        rfl

theorem writeReference_contract_witness :
    ((Odb.Reference.mk "feature" (some "abc123") none none).isDetached = false
        ∧ (Odb.Reference.mk "feature" (some "abc123") none none).hash = some "abc123"
        ∧ "abc123" ≠ "")
      ∧ Odb.writeReference "w8" (Odb.Reference.mk "feature" (some "abc123") none none)
          (⟨[], []⟩ : FS)
          = (.ok (), (⟨[], []⟩ : FS).writeFile (pjoin (pjoin "w8" "refs") "feature")
              (.refData { hash := "abc123", start := none, userData := UData.empty })) := by
  refine ⟨⟨by decide, by decide, by decide⟩, ?_⟩
  have := (writeReference_contract "w8" (Odb.Reference.mk "feature" (some "abc123") none none)
    (⟨[], []⟩ : FS)).2.2 "abc123" (by decide) (by decide) (by decide)
  exact this

end SnowFS
